import Mathlib

/-!
Verification of the streaming CNF normalizer (normalize-cnf.c).

The input stream is modelled as a `List Char`; end of stream is the empty
list (C's `getc` returning `EOF`).  Machine integers are `Nat` with the
overflow guards of the source written out against `INT_MAX`.  Every `die`
call of the source becomes a constructor of `Err`.  The control flow of
`main`'s two loops is a character-at-a-time state machine: each labelled
point of the loop bodies is a state, mirroring the goto structure of the
source.  The parser returns the sequence of body events (a signed literal,
or `0` for a clause terminator); the two output renderings are separate
functions of that event sequence reproducing the emission statements of
the source, so that the produced byte stream is `Except.ok` of the
rendered characters.
-/

namespace NormCnf

/-- `INT_MAX` for the 32-bit `int` of the source. -/
def INT_MAX : Nat := 2147483647

/-- Numeric value of a digit character (C: `ch - '0'`). -/
def dval (c : Char) : Nat := c.toNat - 48

/-- The character of a decimal digit. -/
def digitChar (d : Nat) : Char := Char.ofNat (48 + d)

/-- Decimal digits of `n`, most significant first, with explicit recursion
fuel so that the definition is structural (the fuel `n + 1` always
suffices, see `natCharsAux_fuel`). -/
def natCharsAux : Nat → Nat → List Char
  | 0, _ => []
  | fuel + 1, n =>
    if n < 10 then [digitChar n]
    else natCharsAux fuel (n / 10) ++ [digitChar (n % 10)]

/-- Decimal digits of a natural number, most significant first: the
rendering `printf "%d"` uses for a non-negative `int`. -/
def natChars (n : Nat) : List Char := natCharsAux (n + 1) n

/-- `printf "%d"` rendering of a signed integer. -/
def intChars (e : Int) : List Char :=
  (if e < 0 then ['-'] else []) ++ natChars e.natAbs

/-- The characters emitted for one non-zero literal (C line 235:
`fprintf(output_file, "%d ", sign * lit)`). -/
def litChars (e : Int) : List Char := intChars e ++ [' ']

/-- The fatal errors of the normalizer: one constructor per `die` call
reachable from the parsing loops of `main`. -/
inductive Err
  | eofInComment
  | eofAfterWs
  | expectedHeader
  | invalidHeader
  | invalidVariables
  | expectedSpaceAfterVariables
  | invalidClauses
  | expectedNlAfterHeader
  | zeroMissing
  | clauseMissing
  | invalidLiteral
  | expectedWsAfterLiteral
  | tooManyClauses
  deriving DecidableEq, Repr

/-- The digit-accumulation loop shared by the variable count, the clause
count and the literal scanner (C lines 118-126, 134-142, 210-218): overflow
is checked before the multiply by ten and before the digit addition. -/
def scanNat (acc : Nat) : List Char → Option (Nat × List Char)
  | [] => some (acc, [])
  | c :: cs =>
    if c.isDigit then
      if INT_MAX / 10 < acc then none
      else if INT_MAX - dval c < acc * 10 then none
      else scanNat (acc * 10 + dval c) cs
    else some (acc, c :: cs)

/-- Scan one unsigned decimal token: the first character must be a digit
(C lines 113-117 etc.), the rest accumulates through `scanNat`; `none`
covers a missing first digit and overflow alike. -/
def scanToken : List Char → Option (Nat × List Char)
  | [] => none
  | c :: cs => if c.isDigit then scanNat (dval c) cs else none

/-- Control points of the preamble loop before the header (C lines
94-107). -/
inductive PSt
  | start
  | comment
  | ws
  deriving DecidableEq, Repr

/-- The preamble loop before the header (C lines 94-107): a `c` line is
skipped to its newline, a line whose first character is horizontal
white-space is skipped to its newline, blank lines are skipped; the loop
stops at the first other character, which stays at the head of the
returned stream. -/
def preSkip : PSt → List Char → Except Err (List Char)
  | .start, [] => .ok []
  | .start, c :: cs =>
    if c = 'c' then preSkip .comment cs
    else if c = ' ' ∨ c = '\t' ∨ c = '\r' then preSkip .ws cs
    else if c = '\n' then preSkip .start cs
    else .ok (c :: cs)
  | .comment, [] => .error .eofInComment
  | .comment, c :: cs => if c = '\n' then preSkip .start cs else preSkip .comment cs
  | .ws, [] => .error .eofAfterWs
  | .ws, c :: cs => if c = '\n' then preSkip .start cs else preSkip .ws cs

/-- Match the fixed characters of the `" cnf "` keyword (C lines 110-112). -/
def matchChars : List Char → List Char → Except Err (List Char)
  | [], s => .ok s
  | _ :: _, [] => .error .invalidHeader
  | p :: ps, c :: cs => if p = c then matchChars ps cs else .error .invalidHeader

/-- The run of trailing white-space after the clause count, up to the
mandatory newline (C lines 145-149). -/
def skipTrailingWs : List Char → Except Err (List Char)
  | [] => .error .expectedNlAfterHeader
  | c :: cs =>
    if c = '\n' then .ok cs
    else if c = ' ' ∨ c = '\t' ∨ c = '\r' then skipTrailingWs cs
    else .error .expectedNlAfterHeader

/-- End of the header line (C lines 143-151): one optional carriage
return, then either white-space running to a newline, or the newline. -/
def finishHeader (s : List Char) : Except Err (List Char) :=
  match (match s with | '\r' :: r => r | _ => s) with
  | [] => .error .expectedNlAfterHeader
  | c :: cs =>
    if c = ' ' ∨ c = '\t' then skipTrailingWs cs
    else if c = '\n' then .ok cs
    else .error .expectedNlAfterHeader

/-- The header parser (C lines 94-151): preamble, `p`, `" cnf "`, the two
counts separated by one space, and the end of the line; yields
`(vars, clauses)` and the stream positioned after the header's newline. -/
def parseHeader (s : List Char) : Except Err (Nat × Nat × List Char) :=
  match preSkip .start s with
  | .error e => .error e
  | .ok s1 =>
    match s1 with
    | [] => .error .expectedHeader
    | p0 :: s2 =>
      if p0 = 'p' then
        match matchChars (" cnf ".toList) s2 with
        | .error e => .error e
        | .ok s3 =>
          match scanToken s3 with
          | none => .error .invalidVariables
          | some (vars, s4) =>
            match s4 with
            | ' ' :: s5 =>
              match scanToken s5 with
              | none => .error .invalidClauses
              | some (clauses, s6) =>
                match finishHeader s6 with
                | .error e => .error e
                | .ok rest => .ok (vars, clauses, rest)
            | _ => .error .expectedSpaceAfterVariables
      else .error .expectedHeader

/-- The signed value of a scanned literal (C: `sign * lit`). -/
def litVal (neg : Bool) (m : Nat) : Int := if neg then -(m : Int) else (m : Int)

/-- End of stream directly after a completely scanned token whose
separator was end-of-file, or a comment running to a tolerated
end-of-file: lines 234-241 run once with the token, then the loop reads
end-of-file and the checks of lines 174-179 run. -/
def emitEOF (clauses parsed m : Nat) : Except Err (List Int) :=
  if m ≠ 0 then .error .zeroMissing
  else if parsed = clauses then .error .tooManyClauses
  else if parsed + 1 < clauses then .error .clauseMissing
  else .ok [0]

/-- Control points of the body loop (C lines 172-242): the loop head, the
two comment skippers, the character after a leading carriage return, the
character after a minus sign, the digit accumulation, and the character
after a carriage return following a number. -/
inductive BSt
  | top
  | comment
  | afterCR
  | afterMinus
  | num (neg : Bool) (acc : Nat)
  | sep (neg : Bool) (m : Nat)
  | comment2 (neg : Bool) (m : Nat)
  deriving DecidableEq, Repr

/-- The body loop (C lines 172-242) as a character state machine over the
remaining stream, with the declared counts and the `parsed` and `lit`
variables: returns the emitted events, `0` for each clause terminator and
the signed literal value otherwise.  In states `num`, `sep` and
`comment2` the scanned magnitude is carried in the state (C keeps it in
`lit`; the `lit` argument here is the value from before the token, which
those states no longer consult). -/
def runBody (vars clauses : Nat) (parsed lit : Nat) : BSt → List Char → Except Err (List Int)
  | .top, [] =>
    if lit ≠ 0 then .error .zeroMissing
    else if parsed < clauses then .error .clauseMissing
    else .ok []
  | .comment, [] =>
    if lit ≠ 0 ∨ parsed < clauses then .error .eofInComment else .ok []
  | .afterCR, [] => .error .invalidLiteral
  | .afterMinus, [] => .error .invalidLiteral
  | .num _ acc, [] =>
    if acc > vars then .error .invalidLiteral else emitEOF clauses parsed acc
  | .sep _ m, [] => emitEOF clauses parsed m
  | .comment2 _ m, [] =>
    if m ≠ 0 ∨ parsed < clauses then .error .eofInComment else emitEOF clauses parsed m
  | .top, ch :: s =>
    if ch = 'c' then runBody vars clauses parsed lit .comment s
    else if ch = '\r' then runBody vars clauses parsed lit .afterCR s
    else if ch = ' ' ∨ ch = '\n' ∨ ch = '\t' then runBody vars clauses parsed lit .top s
    else if ch = '-' then runBody vars clauses parsed lit .afterMinus s
    else if ch.isDigit then runBody vars clauses parsed lit (.num false (dval ch)) s
    else .error .invalidLiteral
  | .comment, ch :: s =>
    if ch = '\n' then runBody vars clauses parsed lit .top s
    else runBody vars clauses parsed lit .comment s
  | .afterCR, ch :: s =>
    if ch = ' ' ∨ ch = '\n' ∨ ch = '\t' then runBody vars clauses parsed lit .top s
    else if ch = '-' then runBody vars clauses parsed lit .afterMinus s
    else if ch.isDigit then runBody vars clauses parsed lit (.num false (dval ch)) s
    else .error .invalidLiteral
  | .afterMinus, ch :: s =>
    if ch.isDigit then runBody vars clauses parsed lit (.num true (dval ch)) s
    else .error .invalidLiteral
  | .num neg acc, ch :: s =>
    if ch.isDigit then
      if INT_MAX / 10 < acc then .error .invalidLiteral
      else if INT_MAX - dval ch < acc * 10 then .error .invalidLiteral
      else runBody vars clauses parsed lit (.num neg (acc * 10 + dval ch)) s
    else if acc > vars then .error .invalidLiteral
    else if ch = '\r' then runBody vars clauses parsed lit (.sep neg acc) s
    else if ch = ' ' ∨ ch = '\n' ∨ ch = '\t' then
      if acc ≠ 0 then
        (runBody vars clauses parsed acc .top s).map (fun evs => litVal neg acc :: evs)
      else if parsed = clauses then .error .tooManyClauses
      else (runBody vars clauses (parsed + 1) 0 .top s).map (fun evs => (0 : Int) :: evs)
    else if ch = 'c' then runBody vars clauses parsed lit (.comment2 neg acc) s
    else .error .expectedWsAfterLiteral
  | .sep neg m, ch :: s =>
    if ch = ' ' ∨ ch = '\n' ∨ ch = '\t' then
      if m ≠ 0 then
        (runBody vars clauses parsed m .top s).map (fun evs => litVal neg m :: evs)
      else if parsed = clauses then .error .tooManyClauses
      else (runBody vars clauses (parsed + 1) 0 .top s).map (fun evs => (0 : Int) :: evs)
    else if ch = 'c' then runBody vars clauses parsed lit (.comment2 neg m) s
    else .error .expectedWsAfterLiteral
  | .comment2 neg m, ch :: s =>
    if ch = '\n' then
      if m ≠ 0 then
        (runBody vars clauses parsed m .top s).map (fun evs => litVal neg m :: evs)
      else if parsed = clauses then .error .tooManyClauses
      else (runBody vars clauses (parsed + 1) 0 .top s).map (fun evs => (0 : Int) :: evs)
    else runBody vars clauses parsed lit (.comment2 neg m) s

/-- The body loop from its entry point (C line 170: `parsed = 0, lit = 0`
is the caller's choice of the last two counters). -/
def parseBody (vars clauses parsed lit : Nat) (s : List Char) : Except Err (List Int) :=
  runBody vars clauses parsed lit .top s

/-- Parse and validate a whole DIMACS stream: the header, then the body
events. -/
def parseCnf (s : List Char) : Except Err (Nat × Nat × List Int) :=
  match parseHeader s with
  | .error e => .error e
  | .ok (vars, clauses, body) =>
    match parseBody vars clauses 0 0 body with
    | .error e => .error e
    | .ok evs => .ok (vars, clauses, evs)

/-- Concatenation of a list of runs. -/
def flat {α : Type} : List (List α) → List α
  | [] => []
  | x :: xs => x ++ flat xs

/-- The characters written for one body event in Standard mode
(C lines 234-241 with `gbd` false). -/
def stdTok (e : Int) : List Char :=
  if e = 0 then ['0', '\n'] else litChars e

/-- Standard-mode body output: the events in order. -/
def renderStd (evs : List Int) : List Char := flat (evs.map stdTok)

/-- GBD-mode emission replayed over the event stream (C lines 203-208 and
234-241 with `gbd` true): `first` mirrors the `first` flag and `prevZero`
the test `!lit` at line 203, where `lit` still holds the previous token's
magnitude. -/
def gbdGo (first prevZero : Bool) : List Int → List Char
  | [] => []
  | e :: es =>
    (if prevZero then (if first then [] else [' ']) else []) ++
      (if e = 0 then ['0'] else litChars e) ++
      gbdGo (if prevZero then false else first) (decide (e = 0)) es

/-- GBD-mode output of the whole event stream (at the start `first` is
true and `lit` is zero). -/
def renderGbd (evs : List Int) : List Char := gbdGo true true evs

/-- The header line printed in Standard mode (C line 169). -/
def headerChars (vars clauses : Nat) : List Char :=
  "p cnf ".toList ++ natChars vars ++ [' '] ++ natChars clauses ++ ['\n']

/-- The whole normalizer on a character stream (the parsing and emission
part of `main`, after the streams are opened): the produced output
characters, or the fatal error. -/
def normalize (gbd : Bool) (s : List Char) : Except Err (List Char) :=
  match parseCnf s with
  | .error e => .error e
  | .ok (vars, clauses, evs) =>
    .ok (if gbd then renderGbd evs
         else headerChars vars clauses ++ renderStd evs)

/-- Clause decomposition of an event stream: the runs of non-zero literals
between the value-0 terminators. -/
def toClauses : List Int → List (List Int)
  | [] => []
  | e :: es =>
    if e = 0 then [] :: toClauses es
    else
      match toClauses es with
      | [] => [[e]]
      | cl :: cls => (e :: cl) :: cls

/-- One clause as rendered in Standard mode: the literals, then `"0\n"`. -/
def stdClause (cl : List Int) : List Char := flat (cl.map litChars) ++ ['0', '\n']

/-- One clause as rendered in GBD mode: the literals, then a bare `"0"`. -/
def gbdClause (cl : List Int) : List Char := flat (cl.map litChars) ++ ['0']

/-- Runs joined by exactly one separating space: the join the
specification describes for GBD-mode clauses. -/
def joinBySpace : List (List Char) → List Char
  | [] => []
  | x :: xs => x ++ flat (xs.map (fun y => ' ' :: y))

/-- The value of a run of digit characters appended to an accumulator:
what the digit-accumulation loop computes when no overflow intervenes. -/
def valAcc (acc : Nat) (ds : List Char) : Nat :=
  ds.foldl (fun a c => a * 10 + dval c) acc

/-- The stream does not start with a digit (so a digit scan stops exactly
here). -/
def noDigitHead (s : List Char) : Prop :=
  ∀ d, s.head? = some d → d.isDigit = false

/-! ### Basic character and digit facts -/

theorem isDigit_toNat {c : Char} (h : c.isDigit = true) : 48 ≤ c.toNat ∧ c.toNat ≤ 57 := by
  simp only [Char.isDigit, Bool.and_eq_true, decide_eq_true_eq, ge_iff_le] at h
  exact h

theorem dval_le_nine {c : Char} (h : c.isDigit = true) : dval c ≤ 9 := by
  have := isDigit_toNat h
  simp only [dval]
  omega

theorem isDigit_ne {c : Char} (h : c.isDigit = true) :
    c ≠ 'c' ∧ c ≠ '\r' ∧ c ≠ '\n' ∧ c ≠ ' ' ∧ c ≠ '\t' ∧ c ≠ '-' := by
  refine ⟨?_, ?_, ?_, ?_, ?_, ?_⟩ <;> (rintro rfl; revert h; decide)

theorem digitChar_isDigit : ∀ d, d < 10 → (digitChar d).isDigit = true := by decide

theorem dval_digitChar : ∀ d, d < 10 → dval (digitChar d) = d := by decide

/-! ### Decimal rendering facts -/

theorem natCharsAux_fuel : ∀ f g n, n < f → n < g → natCharsAux f n = natCharsAux g n := by
  intro f
  induction f with
  | zero => intro g n h; omega
  | succ f ih =>
    intro g n hf hg
    cases g with
    | zero => omega
    | succ g =>
      simp only [natCharsAux]
      by_cases h10 : n < 10
      · simp [h10]
      · have hdiv : n / 10 < n := Nat.div_lt_self (by omega) (by omega)
        simp only [h10, if_false]
        rw [ih g (n / 10) (by omega) (by omega)]

theorem natChars_eq (n : Nat) :
    natChars n =
      if n < 10 then [digitChar n] else natChars (n / 10) ++ [digitChar (n % 10)] := by
  rw [show natChars n =
      (if n < 10 then [digitChar n] else natCharsAux n (n / 10) ++ [digitChar (n % 10)]) from rfl]
  by_cases h10 : n < 10
  · simp [h10]
  · have hdiv : n / 10 < n := Nat.div_lt_self (by omega) (by omega)
    simp only [h10, if_false]
    congr 1
    exact natCharsAux_fuel n (n / 10 + 1) (n / 10) (by omega) (by omega)

theorem natChars_digits : ∀ n, ∀ c ∈ natChars n, c.isDigit = true := by
  intro n
  induction n using Nat.strong_induction_on with
  | _ n ih =>
    rw [natChars_eq]
    by_cases h10 : n < 10
    · simp only [h10, if_true, List.mem_singleton]
      rintro c rfl
      exact digitChar_isDigit n h10
    · simp only [h10, if_false, List.mem_append, List.mem_singleton]
      rintro c (hc | rfl)
      · exact ih (n / 10) (Nat.div_lt_self (by omega) (by omega)) c hc
      · exact digitChar_isDigit (n % 10) (Nat.mod_lt n (by omega))

theorem natChars_ne_nil (n : Nat) : natChars n ≠ [] := by
  rw [natChars_eq]
  by_cases h10 : n < 10 <;> simp [h10]

theorem valAcc_nil (acc : Nat) : valAcc acc [] = acc := rfl

theorem valAcc_cons (acc : Nat) (c : Char) (ds : List Char) :
    valAcc acc (c :: ds) = valAcc (acc * 10 + dval c) ds := rfl

theorem valAcc_append (acc : Nat) (a b : List Char) :
    valAcc acc (a ++ b) = valAcc (valAcc acc a) b := by
  simp [valAcc, List.foldl_append]

theorem le_valAcc : ∀ (ds : List Char) (acc : Nat), acc ≤ valAcc acc ds := by
  intro ds
  induction ds with
  | nil => intro acc; simp [valAcc_nil]
  | cons c cs ih =>
    intro acc
    rw [valAcc_cons]
    have := ih (acc * 10 + dval c)
    omega

theorem natChars_val : ∀ n, valAcc 0 (natChars n) = n := by
  intro n
  induction n using Nat.strong_induction_on with
  | _ n ih =>
    rw [natChars_eq]
    by_cases h10 : n < 10
    · simp only [h10, if_true]
      rw [valAcc_cons, valAcc_nil, dval_digitChar n h10]
      omega
    · simp only [h10, if_false]
      rw [valAcc_append, ih (n / 10) (Nat.div_lt_self (by omega) (by omega)),
        valAcc_cons, valAcc_nil, dval_digitChar (n % 10) (Nat.mod_lt n (by omega))]
      omega

/-! ### Integer scanner facts -/

theorem scanNat_le : ∀ (s : List Char) (acc m : Nat) (r : List Char),
    scanNat acc s = some (m, r) → acc ≤ INT_MAX → m ≤ INT_MAX := by
  intro s
  induction s with
  | nil =>
    intro acc m r h hacc
    simp only [scanNat, Option.some.injEq, Prod.mk.injEq] at h
    omega
  | cons c cs ih =>
    intro acc m r h hacc
    have hIM : INT_MAX = 2147483647 := rfl
    simp only [scanNat] at h
    by_cases hdig : c.isDigit = true
    · rw [if_pos hdig] at h
      have h9 := dval_le_nine hdig
      split at h
      · exact absurd h (by simp)
      · split at h
        · exact absurd h (by simp)
        · next h1 h2 => exact ih _ _ _ h (by omega)
    · rw [if_neg hdig] at h
      simp only [Option.some.injEq, Prod.mk.injEq] at h
      omega

theorem scanNat_complete :
    ∀ (ds : List Char) (acc : Nat) (rest : List Char),
      (∀ c ∈ ds, c.isDigit = true) → noDigitHead rest → valAcc acc ds ≤ INT_MAX →
      scanNat acc (ds ++ rest) = some (valAcc acc ds, rest) := by
  intro ds
  induction ds with
  | nil =>
    intro acc rest _ hnd _
    rw [valAcc_nil]
    cases rest with
    | nil => rfl
    | cons r rs =>
      have : r.isDigit = false := hnd r rfl
      simp [scanNat, this]
  | cons c cs ih =>
    intro acc rest hdig hnd hle
    rw [valAcc_cons] at hle ⊢
    have hc : c.isDigit = true := hdig c (List.mem_cons_self c cs)
    have hstep : acc * 10 + dval c ≤ valAcc (acc * 10 + dval c) cs := le_valAcc cs _
    have hIM : INT_MAX = 2147483647 := rfl
    have hg1 : ¬ (INT_MAX / 10 < acc) := by omega
    have hg2 : ¬ (INT_MAX - dval c < acc * 10) := by omega
    simp only [List.cons_append, scanNat, hc, if_true]
    rw [if_neg hg1, if_neg hg2]
    exact ih (acc * 10 + dval c) rest (fun x hx => hdig x (List.mem_cons_of_mem c hx)) hnd hle

theorem scanNat_cases :
    ∀ (ds : List Char) (acc : Nat) (rest : List Char),
      (∀ c ∈ ds, c.isDigit = true) → noDigitHead rest →
      scanNat acc (ds ++ rest) = none ∨
        scanNat acc (ds ++ rest) = some (valAcc acc ds, rest) := by
  intro ds
  induction ds with
  | nil =>
    intro acc rest _ hnd
    right
    rw [valAcc_nil]
    cases rest with
    | nil => rfl
    | cons r rs =>
      have : r.isDigit = false := hnd r rfl
      simp [scanNat, this]
  | cons c cs ih =>
    intro acc rest hdig hnd
    have hc : c.isDigit = true := hdig c (List.mem_cons_self c cs)
    simp only [List.cons_append, scanNat, hc, if_true]
    by_cases h1 : INT_MAX / 10 < acc
    · left; simp [h1]
    · rw [if_neg h1]
      by_cases h2 : INT_MAX - dval c < acc * 10
      · left; simp [h2]
      · rw [if_neg h2, valAcc_cons]
        exact ih (acc * 10 + dval c) rest (fun x hx => hdig x (List.mem_cons_of_mem c hx)) hnd

theorem scanToken_le {s : List Char} {m : Nat} {r : List Char}
    (h : scanToken s = some (m, r)) : m ≤ INT_MAX := by
  cases s with
  | nil => simp [scanToken] at h
  | cons c cs =>
    simp only [scanToken] at h
    split at h
    · next hc =>
      have h9 := dval_le_nine hc
      have hIM : INT_MAX = 2147483647 := rfl
      exact scanNat_le cs (dval c) m r h (by omega)
    · simp at h

theorem scanToken_natChars {n : Nat} {rest : List Char}
    (hle : n ≤ INT_MAX) (hnd : noDigitHead rest) :
    scanToken (natChars n ++ rest) = some (n, rest) := by
  cases h : natChars n with
  | nil => exact absurd h (natChars_ne_nil n)
  | cons d ds =>
    have hd : d.isDigit = true := natChars_digits n d (by rw [h]; exact List.mem_cons_self d ds)
    have hds : ∀ c ∈ ds, c.isDigit = true := fun c hc =>
      natChars_digits n c (by rw [h]; exact List.mem_cons_of_mem d hc)
    have hval : valAcc (dval d) ds = n := by
      have := natChars_val n
      rw [h, valAcc_cons] at this
      simpa using this
    simp only [List.cons_append, scanToken, hd, if_true]
    rw [scanNat_complete ds (dval d) rest hds hnd (by rw [hval]; exact hle), hval]

/-! ### Except.map plumbing -/

theorem except_map_map {α β γ ε : Type} (f : β → γ) (g : α → β) (x : Except ε α) :
    (x.map g).map f = x.map (fun a => f (g a)) := by
  cases x <;> rfl

/-! ### Body machine stepping -/

theorem runBody_comment_skip :
    ∀ (w : List Char), '\n' ∉ w → ∀ (v c p l : Nat) (rest : List Char),
      runBody v c p l .comment (w ++ '\n' :: rest) = runBody v c p l .top rest := by
  intro w
  induction w with
  | nil =>
    intro _ v c p l rest
    simp [runBody]
  | cons a as ih =>
    intro hw v c p l rest
    have ha : ¬ (a = '\n') := by rintro rfl; exact hw (List.mem_cons_self _ _)
    simp only [List.cons_append, runBody, ha, if_false]
    exact ih (fun h => hw (List.mem_cons_of_mem a h)) v c p l rest

theorem runBody_comment_eof :
    ∀ (w : List Char), '\n' ∉ w → ∀ (v c p l : Nat),
      runBody v c p l .comment w =
        if l ≠ 0 ∨ p < c then .error .eofInComment else .ok [] := by
  intro w
  induction w with
  | nil =>
    intro _ v c p l
    rfl
  | cons a as ih =>
    intro hw v c p l
    have ha : ¬ (a = '\n') := by rintro rfl; exact hw (List.mem_cons_self _ _)
    simp only [runBody, ha, if_false]
    exact ih (fun h => hw (List.mem_cons_of_mem a h)) v c p l

theorem runBody_comment2_skip :
    ∀ (w : List Char), '\n' ∉ w → ∀ (v c p l : Nat) (neg : Bool) (m : Nat) (rest : List Char),
      runBody v c p l (.comment2 neg m) (w ++ '\n' :: rest) =
        runBody v c p l (.comment2 neg m) ('\n' :: rest) := by
  intro w
  induction w with
  | nil =>
    intro _ v c p l neg m rest
    rfl
  | cons a as ih =>
    intro hw v c p l neg m rest
    have ha : ¬ (a = '\n') := by rintro rfl; exact hw (List.mem_cons_self _ _)
    simp only [List.cons_append, runBody, ha, if_false]
    exact ih (fun h => hw (List.mem_cons_of_mem a h)) v c p l neg m rest

theorem runBody_num_digits :
    ∀ (ds : List Char), (∀ ch ∈ ds, ch.isDigit = true) →
      ∀ (v c p l : Nat) (neg : Bool) (acc : Nat) (rest : List Char),
        valAcc acc ds ≤ INT_MAX →
        runBody v c p l (.num neg acc) (ds ++ rest) =
          runBody v c p l (.num neg (valAcc acc ds)) rest := by
  intro ds
  induction ds with
  | nil =>
    intro _ v c p l neg acc rest _
    rw [valAcc_nil, List.nil_append]
  | cons a as ih =>
    intro hds v c p l neg acc rest hle
    have ha : a.isDigit = true := hds a (List.mem_cons_self a as)
    rw [valAcc_cons] at hle ⊢
    have hstep : acc * 10 + dval a ≤ valAcc (acc * 10 + dval a) as := le_valAcc as _
    have hIM : INT_MAX = 2147483647 := rfl
    have hg1 : ¬ (INT_MAX / 10 < acc) := by omega
    have hg2 : ¬ (INT_MAX - dval a < acc * 10) := by omega
    simp only [List.cons_append, runBody]
    rw [if_pos ha, if_neg hg1, if_neg hg2]
    exact ih (fun x hx => hds x (List.mem_cons_of_mem a hx)) v c p l neg (acc * 10 + dval a) rest hle

theorem topStep_minus (v c p l : Nat) (s : List Char) :
    runBody v c p l .top ('-' :: s) = runBody v c p l .afterMinus s := by
  simp [runBody]

theorem topStep_digit {d : Char} (hd : d.isDigit = true) (v c p l : Nat) (s : List Char) :
    runBody v c p l .top (d :: s) = runBody v c p l (.num false (dval d)) s := by
  obtain ⟨h1, h2, h3, h4, h5, h6⟩ := isDigit_ne hd
  simp [runBody, h1, h2, h3, h4, h5, h6, hd]

theorem afterMinus_digit {d : Char} (hd : d.isDigit = true) (v c p l : Nat) (s : List Char) :
    runBody v c p l .afterMinus (d :: s) = runBody v c p l (.num true (dval d)) s := by
  simp [runBody, hd]

theorem num_exit_lit {v m : Nat} {w : Char} (hw : w = ' ' ∨ w = '\n' ∨ w = '\t')
    (hm : m ≤ v) (h0 : m ≠ 0) (c p l : Nat) (neg : Bool) (s : List Char) :
    runBody v c p l (.num neg m) (w :: s) =
      Except.map (fun evs => litVal neg m :: evs) (runBody v c p m .top s) := by
  have hwd : w.isDigit = false := by
    rcases hw with rfl | rfl | rfl <;> rfl
  have hwr : ¬ (w = '\r') := by
    rcases hw with rfl | rfl | rfl <;> decide
  have hgt : ¬ (m > v) := by omega
  simp only [runBody]
  rw [if_neg (by simp [hwd]), if_neg hgt, if_neg hwr, if_pos hw, if_pos h0]

theorem num_exit_term {v : Nat} {w : Char} (hw : w = ' ' ∨ w = '\n' ∨ w = '\t')
    (c p l : Nat) (neg : Bool) (s : List Char) :
    runBody v c p l (.num neg 0) (w :: s) =
      if p = c then .error .tooManyClauses
      else Except.map (fun evs => (0 : Int) :: evs) (runBody v c (p + 1) 0 .top s) := by
  have hwd : w.isDigit = false := by
    rcases hw with rfl | rfl | rfl <;> rfl
  have hwr : ¬ (w = '\r') := by
    rcases hw with rfl | rfl | rfl <;> decide
  simp only [runBody]
  rw [if_neg (by simp [hwd]), if_neg (by omega), if_neg hwr, if_pos hw, if_neg (by simp)]

theorem litStep {e : Int} {v : Nat} (he : e ≠ 0) (hb : e.natAbs ≤ v) (hv : v ≤ INT_MAX)
    (c p l : Nat) (rest : List Char) :
    runBody v c p l .top (litChars e ++ rest) =
      Except.map (fun evs => e :: evs) (runBody v c p e.natAbs .top rest) := by
  have hm0 : e.natAbs ≠ 0 := fun h => he (Int.natAbs_eq_zero.mp h)
  obtain ⟨d, ds, hnat⟩ : ∃ d ds, natChars e.natAbs = d :: ds := by
    cases h : natChars e.natAbs with
    | nil => exact absurd h (natChars_ne_nil _)
    | cons d ds => exact ⟨d, ds, rfl⟩
  have hd : d.isDigit = true := natChars_digits _ d (by rw [hnat]; exact List.mem_cons_self _ _)
  have hds : ∀ x ∈ ds, x.isDigit = true := fun x hx =>
    natChars_digits _ x (by rw [hnat]; exact List.mem_cons_of_mem d hx)
  have hval : valAcc (dval d) ds = e.natAbs := by
    have h2 := natChars_val e.natAbs
    rw [hnat, valAcc_cons] at h2
    simpa using h2
  have hvle : valAcc (dval d) ds ≤ INT_MAX := by rw [hval]; omega
  by_cases hneg : e < 0
  · have hshape : litChars e ++ rest = '-' :: (d :: (ds ++ ' ' :: rest)) := by
      simp [litChars, intChars, hneg, hnat]
    rw [hshape, topStep_minus, afterMinus_digit hd,
      runBody_num_digits ds hds v c p l true (dval d) (' ' :: rest) hvle, hval,
      num_exit_lit (Or.inl rfl) hb hm0,
      show litVal true e.natAbs = e from by
        have h1 : (((-e).natAbs : Int)) = -e := Int.natAbs_of_nonneg (by omega)
        rw [Int.natAbs_neg] at h1
        simp only [litVal, if_true]
        rw [h1]
        exact neg_neg e]
  · have hshape : litChars e ++ rest = d :: (ds ++ ' ' :: rest) := by
      simp [litChars, intChars, hneg, hnat]
    rw [hshape, topStep_digit hd,
      runBody_num_digits ds hds v c p l false (dval d) (' ' :: rest) hvle, hval,
      num_exit_lit (Or.inl rfl) hb hm0,
      show litVal false e.natAbs = e from by
        simp only [litVal, if_neg]
        exact Int.natAbs_of_nonneg (not_lt.mp hneg)]

theorem termStep (v c p l : Nat) (rest : List Char) :
    runBody v c p l .top ('0' :: '\n' :: rest) =
      if p = c then .error .tooManyClauses
      else Except.map (fun evs => (0 : Int) :: evs) (runBody v c (p + 1) 0 .top rest) := by
  rw [topStep_digit (show Char.isDigit '0' = true from rfl),
    show dval '0' = 0 from rfl]
  exact num_exit_term (Or.inr (Or.inl rfl)) c p l false rest

theorem clause_rt :
    ∀ (cl : List Int) (v c : Nat), (∀ e ∈ cl, e ≠ 0 ∧ e.natAbs ≤ v) → v ≤ INT_MAX →
      ∀ (p l : Nat) (rest : List Char), p < c →
        runBody v c p l .top (stdClause cl ++ rest) =
          Except.map (fun evs => (cl ++ [0]) ++ evs) (runBody v c (p + 1) 0 .top rest) := by
  intro cl
  induction cl with
  | nil =>
    intro v c _ _ p l rest hpc
    have hshape : stdClause [] ++ rest = '0' :: '\n' :: rest := by
      simp [stdClause, flat]
    rw [hshape, termStep, if_neg (by omega)]
    rfl
  | cons e cl ih =>
    intro v c hok hv p l rest hpc
    have he := (hok e (List.mem_cons_self e cl)).1
    have hb := (hok e (List.mem_cons_self e cl)).2
    have hshape : stdClause (e :: cl) ++ rest = litChars e ++ (stdClause cl ++ rest) := by
      simp [stdClause, flat]
    have hfun : (fun evs => ((e :: cl) ++ [0]) ++ evs) =
        (fun (evs : List Int) => e :: ((cl ++ [0]) ++ evs)) := by
      funext evs
      simp
    rw [hshape, litStep he hb hv,
      ih v c (fun x hx => hok x (List.mem_cons_of_mem e hx)) hv p e.natAbs rest hpc,
      except_map_map, hfun]

theorem body_rt :
    ∀ (cls : List (List Int)) (v c p : Nat),
      (∀ cl ∈ cls, ∀ e ∈ cl, e ≠ 0 ∧ e.natAbs ≤ v) → v ≤ INT_MAX → p + cls.length = c →
      runBody v c p 0 .top (flat (cls.map stdClause)) =
        .ok (flat (cls.map (fun cl => cl ++ [0]))) := by
  intro cls
  induction cls with
  | nil =>
    intro v c p _ _ hlen
    simp only [List.length_nil] at hlen
    simp only [List.map_nil, flat, runBody]
    rw [if_neg (by simp), if_neg (by omega)]
  | cons cl cls ih =>
    intro v c p hok hv hlen
    simp only [List.length_cons] at hlen
    have hpc : p < c := by omega
    have hshape : flat ((cl :: cls).map stdClause) = stdClause cl ++ flat (cls.map stdClause) := by
      simp [flat]
    have hshape2 : flat ((cl :: cls).map (fun cl => cl ++ [0])) =
        (cl ++ [0]) ++ flat (cls.map (fun cl => cl ++ [0])) := by
      simp [flat]
    rw [hshape, hshape2,
      clause_rt cl v c (hok cl (List.mem_cons_self cl cls)) hv p 0 _ hpc,
      ih v c (p + 1) (fun x hx => hok x (List.mem_cons_of_mem cl hx)) hv (by omega)]
    rfl

/-! ### Header stepping -/

theorem preSkip_p (s : List Char) : preSkip .start ('p' :: s) = .ok ('p' :: s) := by
  simp [preSkip]

theorem noDigitHead_cons (c : Char) (hc : c.isDigit = false) (s : List Char) :
    noDigitHead (c :: s) := by
  intro d hd
  simp only [List.head?] at hd
  cases hd
  exact hc

theorem parseHeader_rt (v c : Nat) (hv : v ≤ INT_MAX) (hc : c ≤ INT_MAX) (b : List Char) :
    parseHeader (headerChars v c ++ b) = .ok (v, c, b) := by
  have hshape : headerChars v c ++ b =
      'p' :: ' ' :: 'c' :: 'n' :: 'f' :: ' ' ::
        (natChars v ++ (' ' :: (natChars c ++ ('\n' :: b)))) := by
    simp [headerChars]
  rw [hshape]
  have h2 : scanToken (natChars v ++ (' ' :: (natChars c ++ ('\n' :: b)))) =
      some (v, ' ' :: (natChars c ++ ('\n' :: b))) :=
    scanToken_natChars hv (noDigitHead_cons ' ' rfl _)
  have h3 : scanToken (natChars c ++ ('\n' :: b)) = some (c, '\n' :: b) :=
    scanToken_natChars hc (noDigitHead_cons '\n' rfl _)
  unfold parseHeader
  rw [preSkip_p]
  rw [show (" cnf ".toList) = [' ', 'c', 'n', 'f', ' '] from rfl]
  simp [matchChars, h2, h3, finishHeader]

theorem parseHeader_le {s : List Char} {v c : Nat} {rest : List Char}
    (h : parseHeader s = .ok (v, c, rest)) : v ≤ INT_MAX ∧ c ≤ INT_MAX := by
  unfold parseHeader at h
  repeat' split at h
  all_goals try simp only [reduceCtorEq] at h
  rename_i hscan1 x1 cl2 s6 hscan2 x2 r2 hfin
  simp only [Except.ok.injEq, Prod.mk.injEq] at h
  obtain ⟨h1, h2, _⟩ := h
  subst h1
  subst h2
  exact ⟨scanToken_le hscan1, scanToken_le hscan2⟩

/-! ### Inversion helpers -/

theorem except_map_ok {α β ε : Type} {f : α → β} {x : Except ε α} {b : β}
    (h : Except.map f x = .ok b) : ∃ a, x = .ok a ∧ b = f a := by
  cases x with
  | error e => simp [Except.map] at h
  | ok a =>
    simp only [Except.map, Except.ok.injEq] at h
    exact ⟨a, rfl, h.symm⟩

theorem litVal_natAbs (neg : Bool) (m : Nat) : (litVal neg m).natAbs = m := by
  cases neg <;> simp [litVal]

theorem litVal_eq_zero {neg : Bool} {m : Nat} : litVal neg m = 0 ↔ m = 0 := by
  cases neg <;> simp [litVal]

theorem emitEOF_ok {clauses parsed m : Nat} {evs : List Int}
    (h : emitEOF clauses parsed m = .ok evs) :
    m = 0 ∧ parsed ≠ clauses ∧ clauses ≤ parsed + 1 ∧ evs = [0] := by
  unfold emitEOF at h
  split_ifs at h with h1 h2 h3
  · simp only [Except.ok.injEq] at h
    exact ⟨by omega, h2, by omega, h.symm⟩

/-- Combined invariant of the body machine, by induction over the stream:
on success, the terminator count matches the declared clause count, every
emitted non-zero literal is bounded by the declared variable count, a run
started with a pending literal emits at least one event, and a non-empty
event list ends with a terminator. -/
theorem runBody_inv (vars clauses : Nat) :
    ∀ (s : List Char) (parsed lit : Nat) (st : BSt) (evs : List Int),
      runBody vars clauses parsed lit st s = .ok evs →
      ((parsed ≤ clauses → parsed + evs.count 0 = clauses)
        ∧ ((∀ neg m, st = .sep neg m ∨ st = .comment2 neg m → m ≤ vars) →
            ∀ e ∈ evs, e ≠ 0 → 1 ≤ e.natAbs ∧ e.natAbs ≤ vars)
        ∧ (match st with
           | .top => lit ≠ 0 → evs ≠ []
           | .comment => lit ≠ 0 → evs ≠ []
           | .afterCR => lit ≠ 0 → evs ≠ []
           | _ => evs ≠ [])
        ∧ (evs = [] ∨ ∃ l, evs = l ++ [0])) := by
  intro s
  induction s with
  | nil =>
    intro parsed lit st evs h
    cases st with
    | top =>
      simp only [runBody] at h
      split_ifs at h with h1 h2
      simp only [Except.ok.injEq] at h
      subst h
      refine ⟨by simp; omega, by simp, ?_, Or.inl rfl⟩
      intro hl
      exact absurd hl h1
    | comment =>
      simp only [runBody] at h
      split_ifs at h with h1
      simp only [Except.ok.injEq] at h
      subst h
      push_neg at h1
      refine ⟨by simp; omega, by simp, ?_, Or.inl rfl⟩
      intro hl
      exact absurd h1.1 hl
    | afterCR => simp [runBody] at h
    | afterMinus => simp [runBody] at h
    | num neg acc =>
      simp only [runBody] at h
      split_ifs at h with h1
      obtain ⟨hm, hne, hle, hevs⟩ := emitEOF_ok h
      subst hevs
      refine ⟨by simp [List.count_cons]; omega, by simp, by simp, Or.inr ⟨[], rfl⟩⟩
    | sep neg m =>
      simp only [runBody] at h
      obtain ⟨hm, hne, hle, hevs⟩ := emitEOF_ok h
      subst hevs
      refine ⟨by simp [List.count_cons]; omega, by simp, by simp, Or.inr ⟨[], rfl⟩⟩
    | comment2 neg m =>
      simp only [runBody] at h
      split_ifs at h with h1
      obtain ⟨hm, hne, hle, hevs⟩ := emitEOF_ok h
      subst hevs
      refine ⟨by simp [List.count_cons]; omega, by simp, by simp, Or.inr ⟨[], rfl⟩⟩
  | cons ch s ih =>
    intro parsed lit st evs h
    cases st with
    | top =>
      simp only [runBody] at h
      split at h
      · -- comment
        obtain ⟨c1, c2, c3, c4⟩ := ih parsed lit .comment evs h
        exact ⟨c1, fun _ => c2 (by simp), c3, c4⟩
      · split at h
        · -- carriage return
          obtain ⟨c1, c2, c3, c4⟩ := ih parsed lit .afterCR evs h
          exact ⟨c1, fun _ => c2 (by simp), c3, c4⟩
        · split at h
          · -- white-space
            obtain ⟨c1, c2, c3, c4⟩ := ih parsed lit .top evs h
            exact ⟨c1, fun _ => c2 (by simp), c3, c4⟩
          · split at h
            · -- minus
              obtain ⟨c1, c2, c3, c4⟩ := ih parsed lit .afterMinus evs h
              exact ⟨c1, fun _ => c2 (by simp), fun _ => c3, c4⟩
            · split at h
              · -- digit
                obtain ⟨c1, c2, c3, c4⟩ := ih parsed lit (.num false (dval ch)) evs h
                exact ⟨c1, fun _ => c2 (by simp), fun _ => c3, c4⟩
              · -- invalid
                simp only [reduceCtorEq] at h
    | comment =>
      simp only [runBody] at h
      split at h
      · obtain ⟨c1, c2, c3, c4⟩ := ih parsed lit .top evs h
        exact ⟨c1, fun _ => c2 (by simp), c3, c4⟩
      · obtain ⟨c1, c2, c3, c4⟩ := ih parsed lit .comment evs h
        exact ⟨c1, fun _ => c2 (by simp), c3, c4⟩
    | afterCR =>
      simp only [runBody] at h
      split at h
      · obtain ⟨c1, c2, c3, c4⟩ := ih parsed lit .top evs h
        exact ⟨c1, fun _ => c2 (by simp), c3, c4⟩
      · split at h
        · obtain ⟨c1, c2, c3, c4⟩ := ih parsed lit .afterMinus evs h
          exact ⟨c1, fun _ => c2 (by simp), fun _ => c3, c4⟩
        · split at h
          · obtain ⟨c1, c2, c3, c4⟩ := ih parsed lit (.num false (dval ch)) evs h
            exact ⟨c1, fun _ => c2 (by simp), fun _ => c3, c4⟩
          · simp only [reduceCtorEq] at h
    | afterMinus =>
      simp only [runBody] at h
      split at h
      · obtain ⟨c1, c2, c3, c4⟩ := ih parsed lit (.num true (dval ch)) evs h
        exact ⟨c1, fun _ => c2 (by simp), c3, c4⟩
      · simp only [reduceCtorEq] at h
    | num neg acc =>
      simp only [runBody] at h
      split at h
      · -- digit continuation chain
        split at h
        · simp only [reduceCtorEq] at h
        · split at h
          · simp only [reduceCtorEq] at h
          · obtain ⟨c1, c2, c3, c4⟩ := ih parsed lit (.num neg (acc * 10 + dval ch)) evs h
            exact ⟨c1, fun _ => c2 (by simp), c3, c4⟩
      · -- non-digit
        split at h
        · simp only [reduceCtorEq] at h
        · split at h
          · -- carriage return, to sep
            next hgt hcr =>
            obtain ⟨c1, c2, c3, c4⟩ := ih parsed lit (.sep neg acc) evs h
            refine ⟨c1, fun _ => c2 ?_, c3, c4⟩
            rintro neg' m' (h' | h') <;> first
              | (cases h'; omega)
              | exact absurd h' (by simp)
          · split at h
            · -- white-space separator: emit
              split at h
              · -- literal emit
                next hgt hcr hws hacc =>
                obtain ⟨evs', hX, hevs⟩ := except_map_ok h
                subst hevs
                obtain ⟨c1, c2, c3, c4⟩ := ih parsed acc .top evs' hX
                have hlv : litVal neg acc ≠ 0 := fun hz => hacc (litVal_eq_zero.mp hz)
                have hnonempty : evs' ≠ [] := c3 hacc
                refine ⟨?_, ?_, by simp, ?_⟩
                · intro hple
                  have := c1 hple
                  simp [List.count_cons, hlv]
                  omega
                · intro _ e he hne
                  rcases List.mem_cons.mp he with rfl | hmem
                  · constructor
                    · rw [litVal_natAbs]; omega
                    · rw [litVal_natAbs]; omega
                  · exact c2 (by simp) e hmem hne
                · rcases c4 with rfl | ⟨l, rfl⟩
                  · exact absurd rfl hnonempty
                  · exact Or.inr ⟨litVal neg acc :: l, rfl⟩
              · -- terminator emit
                split at h
                · simp only [reduceCtorEq] at h
                · next hgt hcr hws hacc hpc =>
                  obtain ⟨evs', hX, hevs⟩ := except_map_ok h
                  subst hevs
                  obtain ⟨c1, c2, c3, c4⟩ := ih (parsed + 1) 0 .top evs' hX
                  refine ⟨?_, ?_, by simp, ?_⟩
                  · intro hple
                    have hle1 : parsed + 1 ≤ clauses := by omega
                    have := c1 hle1
                    simp [List.count_cons]
                    omega
                  · intro _ e he hne
                    rcases List.mem_cons.mp he with rfl | hmem
                    · exact absurd rfl hne
                    · exact c2 (by simp) e hmem hne
                  · rcases c4 with rfl | ⟨l, rfl⟩
                    · exact Or.inr ⟨[], rfl⟩
                    · exact Or.inr ⟨(0 : Int) :: l, rfl⟩
            · split at h
              · -- comment after literal
                next hgt hcr hws hcc =>
                obtain ⟨c1, c2, c3, c4⟩ := ih parsed lit (.comment2 neg acc) evs h
                refine ⟨c1, fun _ => c2 ?_, c3, c4⟩
                rintro neg' m' (h' | h') <;> first
                  | (cases h'; omega)
                  | exact absurd h' (by simp)
              · simp only [reduceCtorEq] at h
    | sep neg m =>
      simp only [runBody] at h
      split at h
      · split at h
        · -- literal emit
          next hws hm =>
          obtain ⟨evs', hX, hevs⟩ := except_map_ok h
          subst hevs
          obtain ⟨c1, c2, c3, c4⟩ := ih parsed m .top evs' hX
          have hlv : litVal neg m ≠ 0 := fun hz => hm (litVal_eq_zero.mp hz)
          have hnonempty : evs' ≠ [] := c3 hm
          refine ⟨?_, ?_, by simp, ?_⟩
          · intro hple
            have := c1 hple
            simp [List.count_cons, hlv]
            omega
          · intro hst e he hne
            rcases List.mem_cons.mp he with rfl | hmem
            · have hmv : m ≤ vars := hst neg m (Or.inl rfl)
              constructor
              · rw [litVal_natAbs]; omega
              · rw [litVal_natAbs]; omega
            · exact c2 (by simp) e hmem hne
          · rcases c4 with rfl | ⟨l, rfl⟩
            · exact absurd rfl hnonempty
            · exact Or.inr ⟨litVal neg m :: l, rfl⟩
        · split at h
          · simp only [reduceCtorEq] at h
          · next hws hm hpc =>
            obtain ⟨evs', hX, hevs⟩ := except_map_ok h
            subst hevs
            obtain ⟨c1, c2, c3, c4⟩ := ih (parsed + 1) 0 .top evs' hX
            refine ⟨?_, ?_, by simp, ?_⟩
            · intro hple
              have hle1 : parsed + 1 ≤ clauses := by omega
              have := c1 hle1
              simp [List.count_cons]
              omega
            · intro _ e he hne
              rcases List.mem_cons.mp he with rfl | hmem
              · exact absurd rfl hne
              · exact c2 (by simp) e hmem hne
            · rcases c4 with rfl | ⟨l, rfl⟩
              · exact Or.inr ⟨[], rfl⟩
              · exact Or.inr ⟨(0 : Int) :: l, rfl⟩
      · split at h
        · -- comment
          obtain ⟨c1, c2, c3, c4⟩ := ih parsed lit (.comment2 neg m) evs h
          refine ⟨c1, fun hst => c2 ?_, c3, c4⟩
          rintro neg' m' (h' | h') <;> first
            | (cases h'; exact hst neg m (Or.inl rfl))
            | exact absurd h' (by simp)
        · simp only [reduceCtorEq] at h
    | comment2 neg m =>
      simp only [runBody] at h
      split at h
      · split at h
        · -- literal emit at newline
          next hnl hm =>
          obtain ⟨evs', hX, hevs⟩ := except_map_ok h
          subst hevs
          obtain ⟨c1, c2, c3, c4⟩ := ih parsed m .top evs' hX
          have hlv : litVal neg m ≠ 0 := fun hz => hm (litVal_eq_zero.mp hz)
          have hnonempty : evs' ≠ [] := c3 hm
          refine ⟨?_, ?_, by simp, ?_⟩
          · intro hple
            have := c1 hple
            simp [List.count_cons, hlv]
            omega
          · intro hst e he hne
            rcases List.mem_cons.mp he with rfl | hmem
            · have hmv : m ≤ vars := hst neg m (Or.inr rfl)
              constructor
              · rw [litVal_natAbs]; omega
              · rw [litVal_natAbs]; omega
            · exact c2 (by simp) e hmem hne
          · rcases c4 with rfl | ⟨l, rfl⟩
            · exact absurd rfl hnonempty
            · exact Or.inr ⟨litVal neg m :: l, rfl⟩
        · split at h
          · simp only [reduceCtorEq] at h
          · next hnl hm hpc =>
            obtain ⟨evs', hX, hevs⟩ := except_map_ok h
            subst hevs
            obtain ⟨c1, c2, c3, c4⟩ := ih (parsed + 1) 0 .top evs' hX
            refine ⟨?_, ?_, by simp, ?_⟩
            · intro hple
              have hle1 : parsed + 1 ≤ clauses := by omega
              have := c1 hle1
              simp [List.count_cons]
              omega
            · intro _ e he hne
              rcases List.mem_cons.mp he with rfl | hmem
              · exact absurd rfl hne
              · exact c2 (by simp) e hmem hne
            · rcases c4 with rfl | ⟨l, rfl⟩
              · exact Or.inr ⟨[], rfl⟩
              · exact Or.inr ⟨(0 : Int) :: l, rfl⟩
      · -- stay in comment2
        obtain ⟨c1, c2, c3, c4⟩ := ih parsed lit (.comment2 neg m) evs h
        refine ⟨c1, fun hst => c2 ?_, c3, c4⟩
        rintro neg' m' (h' | h') <;> first
          | (cases h'; exact hst neg m (Or.inr rfl))
          | exact absurd h' (by simp)


/-! ### Clause decomposition of event streams -/

theorem flat_append {α : Type} : ∀ (xs ys : List (List α)), flat (xs ++ ys) = flat xs ++ flat ys := by
  intro xs ys
  induction xs with
  | nil => rfl
  | cons x xs ih => simp [flat, ih]

theorem mem_flat {α : Type} (x : α) : ∀ (xss : List (List α)), x ∈ flat xss ↔ ∃ xs ∈ xss, x ∈ xs := by
  intro xss
  induction xss with
  | nil => simp [flat]
  | cons ys xss ih =>
    simp only [flat, List.mem_append, ih, List.mem_cons]
    constructor
    · rintro (h | ⟨xs, hxs, hx⟩)
      · exact ⟨ys, Or.inl rfl, h⟩
      · exact ⟨xs, Or.inr hxs, hx⟩
    · rintro ⟨xs, (rfl | hxs), hx⟩
      · exact Or.inl hx
      · exact Or.inr ⟨xs, hxs, hx⟩

theorem toClauses_cons_zero (es : List Int) : toClauses (0 :: es) = [] :: toClauses es := by
  simp [toClauses]

theorem toClauses_cons_nz {e : Int} (he : e ≠ 0) (es : List Int) :
    toClauses (e :: es) =
      match toClauses es with
      | [] => [[e]]
      | cl :: cls => (e :: cl) :: cls := by
  simp [toClauses, he]

theorem toClauses_spec : ∀ (evs : List Int), (evs = [] ∨ ∃ l, evs = l ++ [0]) →
    flat ((toClauses evs).map (fun cl => cl ++ [0])) = evs ∧
      ∀ cl ∈ toClauses evs, (0 : Int) ∉ cl := by
  intro evs
  induction evs with
  | nil => intro _; exact ⟨rfl, by simp [toClauses]⟩
  | cons e es ih =>
    rintro (h | ⟨l, hl⟩)
    · exact absurd h (by simp)
    · have hes : es = [] ∨ ∃ l', es = l' ++ [0] := by
        cases l with
        | nil =>
          simp only [List.nil_append, List.cons.injEq] at hl
          left
          exact hl.2
        | cons x l' =>
          simp only [List.cons_append, List.cons.injEq] at hl
          right
          exact ⟨l', hl.2⟩
      obtain ⟨ih1, ih2⟩ := ih hes
      by_cases he : e = 0
      · subst he
        rw [toClauses_cons_zero]
        constructor
        · simp only [List.map_cons, flat, List.nil_append]
          rw [ih1]
          rfl
        · intro cl hcl
          rcases List.mem_cons.mp hcl with rfl | hcl
          · simp
          · exact ih2 cl hcl
      · rw [toClauses_cons_nz he]
        cases htc : toClauses es with
        | nil =>
          exfalso
          rw [htc] at ih1
          simp only [List.map_nil, flat] at ih1
          cases l with
          | nil =>
            simp only [List.nil_append, List.cons.injEq] at hl
            exact he hl.1
          | cons x l' =>
            simp only [List.cons_append, List.cons.injEq] at hl
            rw [← ih1] at hl
            exact absurd hl.2.symm (by simp)
        | cons cl cls =>
          rw [htc] at ih1 ih2
          constructor
          · simp only [List.map_cons, flat, List.cons_append] at ih1 ⊢
            rw [← ih1]
          · intro cl' hcl'
            rcases List.mem_cons.mp hcl' with rfl | hcl'
            · intro hmem
              rcases List.mem_cons.mp hmem with h0 | h0
              · exact he h0.symm
              · exact ih2 cl (List.mem_cons_self cl cls) h0
            · exact ih2 cl' (List.mem_cons_of_mem cl hcl')

theorem count_flat_clauses : ∀ (cls : List (List Int)), (∀ cl ∈ cls, (0 : Int) ∉ cl) →
    (flat (cls.map (fun cl => cl ++ [0]))).count 0 = cls.length := by
  intro cls
  induction cls with
  | nil => intro _; rfl
  | cons cl cls ih =>
    intro hnz
    simp only [List.map_cons, flat, List.count_append, List.length_cons]
    rw [ih (fun x hx => hnz x (List.mem_cons_of_mem cl hx))]
    have h0 : cl.count 0 = 0 :=
      List.count_eq_zero.mpr (hnz cl (List.mem_cons_self cl cls))
    simp [List.count_append, h0]
    omega

/-! ### Standard rendering by clause -/

theorem renderStd_append (a b : List Int) : renderStd (a ++ b) = renderStd a ++ renderStd b := by
  simp [renderStd, flat_append]

theorem renderStd_clause (cl : List Int) (h : (0 : Int) ∉ cl) :
    renderStd (cl ++ [0]) = stdClause cl := by
  rw [renderStd_append]
  have h1 : renderStd cl = flat (cl.map litChars) := by
    unfold renderStd
    congr 1
    apply List.map_congr_left
    intro e he
    have : e ≠ 0 := fun h0 => h (h0 ▸ he)
    simp [stdTok, this]
  rw [h1]
  simp [stdClause, renderStd, flat, stdTok]

theorem renderStd_decomp : ∀ (cls : List (List Int)), (∀ cl ∈ cls, (0 : Int) ∉ cl) →
    renderStd (flat (cls.map (fun cl => cl ++ [0]))) = flat (cls.map stdClause) := by
  intro cls
  induction cls with
  | nil => intro _; rfl
  | cons cl cls ih =>
    intro hnz
    simp only [List.map_cons, flat]
    rw [renderStd_append, renderStd_clause cl (hnz cl (List.mem_cons_self cl cls)),
      ih (fun x hx => hnz x (List.mem_cons_of_mem cl hx))]

/-! ### GBD rendering by clause -/

theorem gbdGo_lits : ∀ (xs : List Int), (0 : Int) ∉ xs → ∀ (f : Bool) (rest : List Int),
    gbdGo f false (xs ++ 0 :: rest) = flat (xs.map litChars) ++ '0' :: gbdGo f true rest := by
  intro xs
  induction xs with
  | nil =>
    intro _ f rest
    simp [gbdGo, flat]
  | cons x xs ih =>
    intro hnz f rest
    have hx : x ≠ 0 := fun h => hnz (h ▸ List.mem_cons_self x xs)
    rw [List.cons_append,
      show gbdGo f false (x :: (xs ++ 0 :: rest)) =
        litChars x ++ gbdGo f false (xs ++ 0 :: rest) from by simp [gbdGo, hx],
      ih (fun h => hnz (List.mem_cons_of_mem x h)) f rest]
    simp [flat]

theorem gbdGo_clause : ∀ (cl : List Int), (0 : Int) ∉ cl → ∀ (f : Bool) (rest : List Int),
    gbdGo f true (cl ++ 0 :: rest) =
      (if f then [] else [' ']) ++ gbdClause cl ++ gbdGo false true rest := by
  intro cl hnz f rest
  cases cl with
  | nil => simp [gbdGo, gbdClause, flat]
  | cons x xs =>
    have hx : x ≠ 0 := fun h => hnz (h ▸ List.mem_cons_self x xs)
    rw [List.cons_append,
      show gbdGo f true (x :: (xs ++ 0 :: rest)) =
        (if f then [] else [' ']) ++ (litChars x ++ gbdGo false false (xs ++ 0 :: rest)) from by
          simp [gbdGo, hx],
      gbdGo_lits xs (fun h => hnz (List.mem_cons_of_mem x h)) false rest]
    simp [gbdClause, flat]

theorem gbdGo_tail : ∀ (cls : List (List Int)), (∀ cl ∈ cls, (0 : Int) ∉ cl) →
    gbdGo false true (flat (cls.map (fun cl => cl ++ [0]))) =
      flat (cls.map (fun cl => ' ' :: gbdClause cl)) := by
  intro cls
  induction cls with
  | nil => intro _; rfl
  | cons cl cls ih =>
    intro hnz
    simp only [List.map_cons, flat]
    rw [List.append_assoc, show ([(0 : Int)] ++ flat (cls.map (fun cl => cl ++ [0]))) =
        (0 : Int) :: flat (cls.map (fun cl => cl ++ [0])) from rfl]
    rw [gbdGo_clause cl (hnz cl (List.mem_cons_self cl cls)) false _,
      ih (fun x hx => hnz x (List.mem_cons_of_mem cl hx))]
    simp

theorem renderGbd_decomp : ∀ (cls : List (List Int)), (∀ cl ∈ cls, (0 : Int) ∉ cl) →
    renderGbd (flat (cls.map (fun cl => cl ++ [0]))) = joinBySpace (cls.map gbdClause) := by
  intro cls hnz
  cases cls with
  | nil => rfl
  | cons cl cls =>
    unfold renderGbd
    simp only [List.map_cons, flat]
    rw [List.append_assoc, show ([(0 : Int)] ++ flat (cls.map (fun cl => cl ++ [0]))) =
        (0 : Int) :: flat (cls.map (fun cl => cl ++ [0])) from rfl]
    rw [gbdGo_clause cl (hnz cl (List.mem_cons_self cl cls)) true _,
      gbdGo_tail cls (fun x hx => hnz x (List.mem_cons_of_mem cl hx))]
    simp only [joinBySpace, List.map_cons, if_pos, List.nil_append]
    congr 1
    simp [List.map_map]
    rfl

theorem mem_litChars {ch : Char} {e : Int} (h : ch ∈ litChars e) :
    ch.isDigit = true ∨ ch = '-' ∨ ch = ' ' := by
  simp only [litChars, intChars, List.mem_append] at h
  rcases h with (h | h) | h
  · split at h
    · simp only [List.mem_singleton] at h
      exact Or.inr (Or.inl h)
    · simp at h
  · exact Or.inl (natChars_digits _ ch h)
  · simp only [List.mem_singleton] at h
    exact Or.inr (Or.inr h)

theorem gbdClause_no_newline (cl : List Int) : '\n' ∉ gbdClause cl := by
  intro h
  simp only [gbdClause, List.mem_append, List.mem_singleton] at h
  rcases h with h | h
  · rw [mem_flat] at h
    obtain ⟨xs, hxs, hmem⟩ := h
    obtain ⟨e, _, rfl⟩ := List.mem_map.mp hxs
    rcases mem_litChars hmem with hd | hc | hc
    · exact absurd hd (by decide)
    · exact absurd hc (by decide)
    · exact absurd hc (by decide)
  · exact absurd h (by decide)

theorem joinBySpace_no_newline : ∀ (cls : List (List Int)),
    '\n' ∉ joinBySpace (cls.map gbdClause) := by
  intro cls
  cases cls with
  | nil => simp [joinBySpace]
  | cons cl cls =>
    intro h
    simp only [List.map_cons, joinBySpace, List.mem_append] at h
    rcases h with h | h
    · exact gbdClause_no_newline cl h
    · rw [mem_flat] at h
      obtain ⟨xs, hxs, hmem⟩ := h
      obtain ⟨y, hy, rfl⟩ := List.mem_map.mp hxs
      obtain ⟨cl', _, rfl⟩ := List.mem_map.mp hy
      rcases List.mem_cons.mp hmem with heq | hmem
      · exact absurd heq (by decide)
      · exact gbdClause_no_newline cl' hmem

/-! ### Corollaries of the body invariant -/

theorem parseBody_count {vars clauses : Nat} {s : List Char} {evs : List Int}
    (h : parseBody vars clauses 0 0 s = .ok evs) : evs.count 0 = clauses := by
  have := (runBody_inv vars clauses s 0 0 .top evs h).1 (Nat.zero_le _)
  omega

theorem parseBody_bound {vars clauses : Nat} {s : List Char} {evs : List Int}
    (h : parseBody vars clauses 0 0 s = .ok evs) :
    ∀ e ∈ evs, e ≠ 0 → 1 ≤ e.natAbs ∧ e.natAbs ≤ vars :=
  (runBody_inv vars clauses s 0 0 .top evs h).2.1
    (by rintro neg m (h' | h') <;> exact absurd h' (by simp))

theorem parseBody_shape {vars clauses : Nat} {s : List Char} {evs : List Int}
    (h : parseBody vars clauses 0 0 s = .ok evs) : evs = [] ∨ ∃ l, evs = l ++ [0] :=
  (runBody_inv vars clauses s 0 0 .top evs h).2.2.2

theorem parseCnf_ok {s : List Char} {v c : Nat} {evs : List Int}
    (h : parseCnf s = .ok (v, c, evs)) :
    ∃ body, parseHeader s = .ok (v, c, body) ∧ parseBody v c 0 0 body = .ok evs := by
  unfold parseCnf at h
  repeat' split at h
  all_goals try simp only [reduceCtorEq] at h
  simp only [Except.ok.injEq, Prod.mk.injEq] at h
  obtain ⟨h1, h2, h3⟩ := h
  subst h1
  subst h2
  subst h3
  exact ⟨_, by assumption, by assumption⟩

/-! ### Preamble stepping -/

theorem preSkip_start_c (s : List Char) : preSkip .start ('c' :: s) = preSkip .comment s := by
  simp [preSkip]

theorem preSkip_start_ws {a : Char} (ha : a = ' ' ∨ a = '\t' ∨ a = '\r') (s : List Char) :
    preSkip .start (a :: s) = preSkip .ws s := by
  rcases ha with rfl | rfl | rfl <;> simp [preSkip]

theorem preSkip_comment_skip : ∀ (w : List Char), '\n' ∉ w → ∀ (rest : List Char),
    preSkip .comment (w ++ '\n' :: rest) = preSkip .start rest := by
  intro w
  induction w with
  | nil => intro _ rest; simp [preSkip]
  | cons a as ih =>
    intro hw rest
    have ha : ¬ (a = '\n') := by rintro rfl; exact hw (List.mem_cons_self _ _)
    simp only [List.cons_append, preSkip, ha, if_false]
    exact ih (fun h => hw (List.mem_cons_of_mem a h)) rest

theorem preSkip_ws_skip : ∀ (w : List Char), '\n' ∉ w → ∀ (rest : List Char),
    preSkip .ws (w ++ '\n' :: rest) = preSkip .start rest := by
  intro w
  induction w with
  | nil => intro _ rest; simp [preSkip]
  | cons a as ih =>
    intro hw rest
    have ha : ¬ (a = '\n') := by rintro rfl; exact hw (List.mem_cons_self _ _)
    simp only [List.cons_append, preSkip, ha, if_false]
    exact ih (fun h => hw (List.mem_cons_of_mem a h)) rest

theorem preSkip_ws_eof : ∀ (w : List Char), '\n' ∉ w →
    preSkip .ws w = .error .eofAfterWs := by
  intro w
  induction w with
  | nil => intro _; rfl
  | cons a as ih =>
    intro hw
    have ha : ¬ (a = '\n') := by rintro rfl; exact hw (List.mem_cons_self _ _)
    simp only [preSkip, ha, if_false]
    exact ih (fun h => hw (List.mem_cons_of_mem a h))

theorem parseHeader_comment {w : List Char} (hw : '\n' ∉ w) (s : List Char) :
    parseHeader (('c' :: w) ++ '\n' :: s) = parseHeader s := by
  unfold parseHeader
  rw [List.cons_append, preSkip_start_c, preSkip_comment_skip w hw s]

theorem parseCnf_comment {w : List Char} (hw : '\n' ∉ w) (s : List Char) :
    parseCnf (('c' :: w) ++ '\n' :: s) = parseCnf s := by
  unfold parseCnf
  rw [parseHeader_comment hw]

theorem normalize_comment {g : Bool} {w : List Char} (hw : '\n' ∉ w) (s : List Char) :
    normalize g (('c' :: w) ++ '\n' :: s) = normalize g s := by
  unfold normalize
  rw [parseCnf_comment hw]

/-! ### Sign irrelevance for a zero token -/

theorem comment2_neg_irrel : ∀ (s : List Char) (vars clauses parsed lit : Nat) (neg : Bool),
    runBody vars clauses parsed lit (.comment2 neg 0) s =
      runBody vars clauses parsed lit (.comment2 false 0) s := by
  intro s
  induction s with
  | nil => intro vars clauses parsed lit neg; rfl
  | cons ch s ih =>
    intro vars clauses parsed lit neg
    by_cases hch : ch = '\n'
    · simp [runBody, hch]
    · simp only [runBody, hch, if_false]
      exact ih vars clauses parsed lit neg

theorem sep_neg_irrel (vars clauses parsed lit : Nat) (s : List Char) (neg : Bool) :
    runBody vars clauses parsed lit (.sep neg 0) s =
      runBody vars clauses parsed lit (.sep false 0) s := by
  cases s with
  | nil => rfl
  | cons ch s =>
    by_cases hws : ch = ' ' ∨ ch = '\n' ∨ ch = '\t'
    · simp [runBody, hws]
    · by_cases hc : ch = 'c'
      · simp only [runBody, hws, if_false, hc, if_true]
        exact comment2_neg_irrel s vars clauses parsed lit neg
      · simp [runBody, hws, hc]

theorem num_zero_neg_irrel (vars clauses parsed lit : Nat) {rest : List Char}
    (hnd : noDigitHead rest) (neg : Bool) :
    runBody vars clauses parsed lit (.num neg 0) rest =
      runBody vars clauses parsed lit (.num false 0) rest := by
  cases rest with
  | nil => rfl
  | cons ch s =>
    have hd : ch.isDigit = false := hnd ch rfl
    by_cases hcr : ch = '\r'
    · have hgt : ¬ ((0 : Nat) > vars) := by omega
      simp only [runBody, hd, Bool.false_eq_true, if_false, hcr, if_true]
      rw [if_neg hgt, if_neg hgt]
      exact sep_neg_irrel vars clauses parsed lit s neg
    · by_cases hws : ch = ' ' ∨ ch = '\n' ∨ ch = '\t'
      · simp [runBody, hd, hcr, hws]
      · by_cases hc : ch = 'c'
        · have hgt : ¬ ((0 : Nat) > vars) := by omega
          simp only [runBody, hd, Bool.false_eq_true, if_false, hcr, hws, hc, if_true]
          rw [if_neg hgt, if_neg hgt]
          exact comment2_neg_irrel s vars clauses parsed lit neg
        · simp [runBody, hd, hcr, hws, hc]

/-! ### Building parses -/

theorem parseCnf_build {s : List Char} {v c : Nat} {body : List Char} {evs : List Int}
    (h1 : parseHeader s = .ok (v, c, body)) (h2 : parseBody v c 0 0 body = .ok evs) :
    parseCnf s = .ok (v, c, evs) := by
  unfold parseCnf
  rw [h1]
  simp [h2]

theorem normalize_build {s : List Char} {v c : Nat} {evs : List Int} (g : Bool)
    (h : parseCnf s = .ok (v, c, evs)) :
    normalize g s = .ok (if g then renderGbd evs else headerChars v c ++ renderStd evs) := by
  unfold normalize
  rw [h]

theorem minus_zero_step (vars clauses parsed lit : Nat) {rest : List Char}
    (hnd : noDigitHead rest) :
    runBody vars clauses parsed lit .top ('-' :: '0' :: rest) =
      runBody vars clauses parsed lit .top ('0' :: rest) := by
  rw [topStep_minus, afterMinus_digit (show Char.isDigit '0' = true from rfl),
    topStep_digit (show Char.isDigit '0' = true from rfl),
    show dval '0' = 0 from rfl]
  exact num_zero_neg_irrel vars clauses parsed lit hnd true

/-! ### The claims -/

/-- C1 (counterexample): the claim states that reaching end-of-stream with
fewer terminators than declared fails with the missing-clause error; on the
input `"p cnf 1 1\n1"` end-of-stream is reached with no terminator read
(one declared), yet the error is the missing-terminator error
`zero at end of last clause missing`, not `clause missing`. -/
theorem c1_counterexample :
    parseCnf ("p cnf 1 1\n1".toList) = .error .zeroMissing
      ∧ Err.zeroMissing ≠ Err.clauseMissing :=
  ⟨rfl, by decide⟩

/-- C1 (amended): the number of terminator events of an accepted input
equals the declared clause count exactly; a terminator beyond the declared
count fails with the too-many-clauses error; end-of-stream with fewer
terminators than declared fails with the missing-clause error only when no
clause is open, and with the missing-terminator error when one is. -/
theorem c1_clause_count_amended :
    (∀ (s : List Char) (v c : Nat) (evs : List Int),
        parseCnf s = .ok (v, c, evs) → evs.count 0 = c)
      ∧ parseCnf ("p cnf 1 2\n1 0\n".toList) = .error .clauseMissing
      ∧ parseCnf ("p cnf 1 1\n1 0 0\n".toList) = .error .tooManyClauses
      ∧ parseCnf ("p cnf 1 1\n1".toList) = .error .zeroMissing := by
  refine ⟨?_, rfl, rfl, rfl⟩
  intro s v c evs h
  obtain ⟨body, _, hpb⟩ := parseCnf_ok h
  exact parseBody_count hpb

/-- C1 (witness): the amended count theorem applied to a concrete
accepted input. -/
theorem c1_clause_count_witness :
    parseCnf ("p cnf 3 2\n1 -3 0 2 0\n".toList) = .ok (3, 2, [1, -3, 0, 2, 0])
      ∧ ([1, -3, 0, 2, 0] : List Int).count 0 = 2 :=
  ⟨rfl, c1_clause_count_amended.1 ("p cnf 3 2\n1 -3 0 2 0\n".toList) 3 2 _ rfl⟩

/-- C2: every emitted non-zero literal of an accepted input has magnitude
between 1 and the declared variable count; a non-zero literal whose
magnitude exceeds the declared count is rejected (with the
invalid-literal fatal error), while a zero literal bypasses the bound
check even when zero variables are declared. -/
theorem c2_literal_bound :
    (∀ (s : List Char) (v c : Nat) (evs : List Int) (e : Int),
        parseCnf s = .ok (v, c, evs) → e ∈ evs → e ≠ 0 →
          1 ≤ e.natAbs ∧ e.natAbs ≤ v)
      ∧ parseCnf ("p cnf 1 1\n2 0\n".toList) = .error .invalidLiteral
      ∧ parseCnf ("p cnf 0 1\n0\n".toList) = .ok (0, 1, [0]) := by
  refine ⟨?_, rfl, rfl⟩
  intro s v c evs e h hmem hne
  obtain ⟨body, _, hpb⟩ := parseCnf_ok h
  exact parseBody_bound hpb e hmem hne

/-- C2 (witness): the bound theorem applied to a concrete accepted input
and literal. -/
theorem c2_literal_bound_witness :
    parseCnf ("p cnf 2 1\n1 -2 0\n".toList) = .ok (2, 1, [1, -2, 0])
      ∧ ((-2 : Int) ∈ ([1, -2, 0] : List Int) ∧ (-2 : Int) ≠ 0)
      ∧ 1 ≤ (-2 : Int).natAbs ∧ (-2 : Int).natAbs ≤ 2 :=
  ⟨rfl, ⟨by decide, by decide⟩,
    c2_literal_bound.1 ("p cnf 2 1\n1 -2 0\n".toList) 2 1 [1, -2, 0] (-2) rfl
      (by decide) (by decide)⟩

/-- C3: Standard-mode normalization is idempotent: the output of an
accepted run is itself accepted, and normalizing it again returns it
byte-for-byte. -/
theorem c3_idempotent :
    ∀ (s t : List Char), normalize false s = .ok t → normalize false t = .ok t := by
  intro s t h
  unfold normalize at h
  split at h
  · simp only [reduceCtorEq] at h
  · rename_i x v c evs hpc
    simp only [Bool.false_eq_true, if_false, Except.ok.injEq] at h
    obtain ⟨body, hph, hpb⟩ := parseCnf_ok hpc
    obtain ⟨hv, hc⟩ := parseHeader_le hph
    have hcount := parseBody_count hpb
    have hbound := parseBody_bound hpb
    obtain ⟨hflat, hnz⟩ := toClauses_spec evs (parseBody_shape hpb)
    have hlen : (toClauses evs).length = c := by
      have hcf := count_flat_clauses (toClauses evs) hnz
      rw [hflat] at hcf
      omega
    have hlits : ∀ cl ∈ toClauses evs, ∀ e ∈ cl, e ≠ 0 ∧ e.natAbs ≤ v := by
      intro cl hcl e he
      have hne : e ≠ 0 := fun h0 => hnz cl hcl (h0 ▸ he)
      have hmem : e ∈ evs := by
        rw [← hflat, mem_flat]
        exact ⟨cl ++ [0], List.mem_map.mpr ⟨cl, hcl, rfl⟩, List.mem_append.mpr (Or.inl he)⟩
      exact ⟨hne, (hbound e hmem hne).2⟩
    have hstd : renderStd evs = flat ((toClauses evs).map stdClause) := by
      have hdec := renderStd_decomp (toClauses evs) hnz
      rw [hflat] at hdec
      exact hdec
    have hbody : parseBody v c 0 0 (renderStd evs) = .ok evs := by
      rw [hstd]
      have hrt := body_rt (toClauses evs) v c 0 hlits hv (by omega)
      rw [hflat] at hrt
      exact hrt
    have hparse2 : parseCnf t = .ok (v, c, evs) := by
      rw [← h]
      exact parseCnf_build (parseHeader_rt v c hv hc (renderStd evs)) hbody
    have hout := normalize_build false hparse2
    simp only [Bool.false_eq_true, if_false] at hout
    rw [hout, h]

/-- C3 (witness): a run on a concrete input with comments and extra
white-space, and the theorem re-applied to its output. -/
theorem c3_idempotent_witness :
    normalize false ("c top\np cnf 2 1\n 1  -2 0\n".toList) =
        .ok ("p cnf 2 1\n1 -2 0\n".toList)
      ∧ normalize false ("p cnf 2 1\n1 -2 0\n".toList) =
          .ok ("p cnf 2 1\n1 -2 0\n".toList) :=
  ⟨rfl, c3_idempotent ("c top\np cnf 2 1\n 1  -2 0\n".toList)
    ("p cnf 2 1\n1 -2 0\n".toList) rfl⟩

/-- C4: for an accepted input, GBD-mode output is the event stream
rendered with no header and no newline character, and it equals the
Standard-mode body with each clause's trailing `"0\n"` replaced by a bare
`"0"` and consecutive clauses joined by exactly one space (`joinBySpace`
of the clauses, with the leading space of each clause after the first and
no space before the very first literal of the formula). -/
theorem c4_gbd_single_line :
    ∀ (s : List Char) (v c : Nat) (evs : List Int), parseCnf s = .ok (v, c, evs) →
      normalize true s = .ok (renderGbd evs)
        ∧ '\n' ∉ renderGbd evs
        ∧ ∃ cls : List (List Int),
            (∀ cl ∈ cls, (0 : Int) ∉ cl)
              ∧ renderStd evs = flat (cls.map stdClause)
              ∧ renderGbd evs = joinBySpace (cls.map gbdClause) := by
  intro s v c evs h
  obtain ⟨body, hph, hpb⟩ := parseCnf_ok h
  obtain ⟨hflat, hnz⟩ := toClauses_spec evs (parseBody_shape hpb)
  have hgbd : renderGbd evs = joinBySpace ((toClauses evs).map gbdClause) := by
    have hdec := renderGbd_decomp (toClauses evs) hnz
    rw [hflat] at hdec
    exact hdec
  have hstd : renderStd evs = flat ((toClauses evs).map stdClause) := by
    have hdec := renderStd_decomp (toClauses evs) hnz
    rw [hflat] at hdec
    exact hdec
  refine ⟨normalize_build true h, ?_, toClauses evs, hnz, hstd, hgbd⟩
  rw [hgbd]
  exact joinBySpace_no_newline _

/-- C4 (witness): the GBD theorem applied to a concrete accepted input
with an empty clause and a negative literal. -/
theorem c4_gbd_single_line_witness :
    parseCnf ("p cnf 2 2\n1 -2 0 0\n".toList) = .ok (2, 2, [1, -2, 0, 0])
      ∧ (normalize true ("p cnf 2 2\n1 -2 0 0\n".toList) =
            .ok (renderGbd [1, -2, 0, 0])
          ∧ '\n' ∉ renderGbd [1, -2, 0, 0]
          ∧ ∃ cls : List (List Int),
              (∀ cl ∈ cls, (0 : Int) ∉ cl)
                ∧ renderStd [1, -2, 0, 0] = flat (cls.map stdClause)
                ∧ renderGbd [1, -2, 0, 0] = joinBySpace (cls.map gbdClause)) :=
  ⟨rfl, c4_gbd_single_line ("p cnf 2 2\n1 -2 0 0\n".toList) 2 2 [1, -2, 0, 0] rfl⟩

/-- C5: a newline-terminated comment line inserted at the start of the
input (before the header) or at any token boundary of the body — any
state of the body loop's head, including between two literals of the same
clause — leaves acceptance and the normalized output unchanged. -/
theorem c5_comment_transparency :
    (∀ (g : Bool) (w s : List Char), '\n' ∉ w →
        normalize g (('c' :: w) ++ '\n' :: s) = normalize g s)
      ∧ (∀ (w rest : List Char), '\n' ∉ w →
          preSkip .start (('c' :: w) ++ '\n' :: rest) = preSkip .start rest)
      ∧ (∀ (vars clauses parsed lit : Nat) (w rest : List Char), '\n' ∉ w →
          parseBody vars clauses parsed lit (('c' :: w) ++ '\n' :: rest) =
            parseBody vars clauses parsed lit rest) := by
  refine ⟨?_, ?_, ?_⟩
  · intro g w s hw
    exact normalize_comment hw s
  · intro w rest hw
    rw [List.cons_append, preSkip_start_c, preSkip_comment_skip w hw rest]
  · intro vars clauses parsed lit w rest hw
    unfold parseBody
    rw [List.cons_append,
      show runBody vars clauses parsed lit .top ('c' :: (w ++ '\n' :: rest)) =
        runBody vars clauses parsed lit .comment (w ++ '\n' :: rest) from by simp [runBody]]
    exact runBody_comment_skip w hw vars clauses parsed lit rest

/-- C5 (witness): inserting the comment line `"cx\n"` before the header
and inside a clause of a concrete input leaves the output unchanged. -/
theorem c5_comment_transparency_witness :
    ('\n' ∉ ['x'])
      ∧ normalize false (('c' :: ['x']) ++ '\n' :: ("p cnf 2 1\n1 -2 0\n".toList)) =
          normalize false ("p cnf 2 1\n1 -2 0\n".toList)
      ∧ parseBody 2 1 0 1 (('c' :: ['x']) ++ '\n' :: ("-2 0\n".toList)) =
          parseBody 2 1 0 1 ("-2 0\n".toList) :=
  ⟨by decide, c5_comment_transparency.1 false ['x'] _ (by decide),
    c5_comment_transparency.2.2 2 1 0 1 ['x'] _ (by decide)⟩

/-- C6: the shared decimal scanner accepts a token whose value is
`INT_MAX` exactly (leaving the stream empty), rejects the token one
larger, never returns a value above `INT_MAX`, and rejects every digit
string whose value is `INT_MAX + 1` (the overflow guards in `scanNat`
test before the multiply by ten and before the digit addition). -/
theorem c6_overflow_boundary :
    scanToken ("2147483647".toList) = some (INT_MAX, [])
      ∧ scanToken ("2147483648".toList) = none
      ∧ (∀ (ds rest : List Char), ds ≠ [] → (∀ ch ∈ ds, ch.isDigit = true) →
          noDigitHead rest → valAcc 0 ds ≤ INT_MAX →
          scanToken (ds ++ rest) = some (valAcc 0 ds, rest))
      ∧ (∀ (s : List Char) (m : Nat) (r : List Char),
          scanToken s = some (m, r) → m ≤ INT_MAX)
      ∧ (∀ (ds rest : List Char), (∀ ch ∈ ds, ch.isDigit = true) → noDigitHead rest →
          valAcc 0 ds = INT_MAX + 1 → scanToken (ds ++ rest) = none) := by
  refine ⟨rfl, rfl, ?_, fun s m r h => scanToken_le h, ?_⟩
  · intro ds rest hne hdig hnd hle
    cases ds with
    | nil => exact absurd rfl hne
    | cons d ds =>
      have hd : d.isDigit = true := hdig d (List.mem_cons_self d ds)
      have hds : ∀ x ∈ ds, x.isDigit = true := fun x hx => hdig x (List.mem_cons_of_mem d hx)
      rw [valAcc_cons, show (0 : Nat) * 10 + dval d = dval d from by omega] at hle ⊢
      simp only [List.cons_append, scanToken, hd, if_true]
      exact scanNat_complete ds (dval d) rest hds hnd hle
  intro ds rest hdig hnd hval
  cases ds with
  | nil => simp [valAcc_nil] at hval
  | cons d ds =>
    have hd : d.isDigit = true := hdig d (List.mem_cons_self d ds)
    have hds : ∀ x ∈ ds, x.isDigit = true := fun x hx => hdig x (List.mem_cons_of_mem d hx)
    rw [valAcc_cons] at hval
    simp only [List.cons_append, scanToken, hd, if_true]
    rcases scanNat_cases ds (dval d) rest hds hnd with hnone | hsome
    · rw [show (0 : Nat) * 10 + dval d = dval d from by omega] at hval
      exact hnone
    · exfalso
      have h9 := dval_le_nine hd
      have hIM : INT_MAX = 2147483647 := rfl
      have hle := scanNat_le (ds ++ rest) (dval d) _ _ hsome (by omega)
      rw [show (0 : Nat) * 10 + dval d = dval d from by omega] at hval
      omega

/-- C6 (witness): the no-value-above-`INT_MAX` part applied to a concrete
scan. -/
theorem c6_overflow_boundary_witness :
    scanToken ("7 ".toList) = some (7, [' ']) ∧ 7 ≤ INT_MAX :=
  ⟨rfl, c6_overflow_boundary.2.2.2.1 ("7 ".toList) 7 [' '] rfl⟩

/-- C7 (counterexample): the claim states that an unterminated trailing
comment is tolerated whenever the non-comment content is already a
complete formula; on `"p cnf 1 1\n1 0c"` the non-comment content
`"1 0"` is complete (one clause, one declared), yet parsing fails with
the end-of-file-in-comment error, because the terminator read just before
the comment has not yet been counted at the check of line 228.  With a
space before the comment the same content is accepted. -/
theorem c7_counterexample :
    parseCnf ("p cnf 1 1\n1 0c".toList) = .error .eofInComment
      ∧ parseCnf ("p cnf 1 1\n1 0 c".toList) = .ok (1, 1, [1, 0]) :=
  ⟨rfl, rfl⟩

/-- C7 (amended): end-of-stream inside a body comment started at the
loop head fails with the end-of-file-in-comment error exactly when the
last token was an open literal or the already-counted terminators fall
short of the declared count; for a comment that directly follows a token
(the separator position), the same check runs with that token still
uncounted, and when it passes, the pending token is still emitted
afterwards (`emitEOF`). -/
theorem c7_comment_eof_amended :
    (∀ (vars clauses parsed lit : Nat) (w : List Char), '\n' ∉ w →
        parseBody vars clauses parsed lit ('c' :: w) =
          if lit ≠ 0 ∨ parsed < clauses then .error .eofInComment else .ok [])
      ∧ (∀ (vars clauses parsed lit : Nat) (neg : Bool) (m : Nat) (w : List Char), '\n' ∉ w →
          runBody vars clauses parsed lit (.comment2 neg m) w =
            if m ≠ 0 ∨ parsed < clauses then .error .eofInComment
            else emitEOF clauses parsed m)
      ∧ parseCnf ("p cnf 1 1\n1 0c".toList) = .error .eofInComment
      ∧ parseCnf ("p cnf 1 1\n1 0 c x".toList) = .ok (1, 1, [1, 0]) := by
  refine ⟨?_, ?_, rfl, rfl⟩
  · intro vars clauses parsed lit w hw
    unfold parseBody
    rw [show runBody vars clauses parsed lit .top ('c' :: w) =
        runBody vars clauses parsed lit .comment w from by simp [runBody]]
    exact runBody_comment_eof w hw vars clauses parsed lit
  · intro vars clauses parsed lit neg m w hw
    induction w with
    | nil => rfl
    | cons a as ih =>
      have ha : ¬ (a = '\n') := by rintro rfl; exact hw (List.mem_cons_self _ _)
      simp only [runBody, ha, if_false]
      exact ih (fun h => hw (List.mem_cons_of_mem a h))

/-- C7 (witness): the amended end-of-file-in-comment rule applied at a
concrete complete state and at a concrete incomplete state. -/
theorem c7_comment_eof_witness :
    ('\n' ∉ ['x'])
      ∧ parseBody 1 1 1 0 ('c' :: ['x']) = .ok []
      ∧ parseBody 1 1 0 0 ('c' :: ['x']) = .error .eofInComment := by
  refine ⟨by decide, ?_, ?_⟩
  · rw [c7_comment_eof_amended.1 1 1 1 0 ['x'] (by decide)]
    rfl
  · rw [c7_comment_eof_amended.1 1 1 0 0 ['x'] (by decide)]
    rfl

/-- C8 (counterexample): the claim states that a preamble line beginning
with horizontal white-space is skipped only when it is all white-space,
and that a non-white-space character on it triggers the expected-header
error; on `" x\np cnf 0 0\n"` the line `" x"` contains `x`, yet the
whole input is accepted. -/
theorem c8_counterexample :
    parseCnf (" x\np cnf 0 0\n".toList) = .ok (0, 0, [])
      ∧ normalize false (" x\np cnf 0 0\n".toList) = .ok ("p cnf 0 0\n".toList) :=
  ⟨rfl, rfl⟩

/-- C8 (amended): during preamble skipping, a line whose first character
is horizontal white-space is skipped wholesale up to its newline,
whatever characters follow on the line; if the stream ends before that
newline, parsing fails with the end-of-file-after-white-space error. -/
theorem c8_preamble_ws_amended :
    (∀ (a : Char) (w rest : List Char), (a = ' ' ∨ a = '\t' ∨ a = '\r') → '\n' ∉ w →
        preSkip .start ((a :: w) ++ '\n' :: rest) = preSkip .start rest)
      ∧ (∀ (a : Char) (w : List Char), (a = ' ' ∨ a = '\t' ∨ a = '\r') → '\n' ∉ w →
          preSkip .start (a :: w) = .error .eofAfterWs) := by
  constructor
  · intro a w rest ha hw
    rw [List.cons_append, preSkip_start_ws ha, preSkip_ws_skip w hw rest]
  · intro a w ha hw
    rw [preSkip_start_ws ha, preSkip_ws_eof w hw]

/-- C8 (witness): the amended skipping rule applied to the concrete line
`" x\n"`. -/
theorem c8_preamble_ws_witness :
    ((' ' : Char) = ' ' ∨ (' ' : Char) = '\t' ∨ (' ' : Char) = '\r')
      ∧ ('\n' ∉ ['x'])
      ∧ preSkip .start ((' ' :: ['x']) ++ '\n' :: ("p".toList)) = preSkip .start ("p".toList)
      ∧ preSkip .start (' ' :: ['x']) = .error .eofAfterWs :=
  ⟨Or.inl rfl, by decide,
    c8_preamble_ws_amended.1 ' ' ['x'] _ (Or.inl rfl) (by decide),
    c8_preamble_ws_amended.2 ' ' ['x'] (Or.inl rfl) (by decide)⟩

/-- C9 (counterexample): the claim states that a bare 0 token with no
preceding non-zero literal in its clause is rejected; on
`"p cnf 1 2\n0 1 0\n"` the first clause is empty, yet the input is
accepted and the bare 0 is emitted as a terminator. -/
theorem c9_counterexample :
    parseCnf ("p cnf 1 2\n0 1 0\n".toList) = .ok (1, 2, [0, 1, 0])
      ∧ normalize false ("p cnf 1 2\n0 1 0\n".toList) =
          .ok ("p cnf 1 2\n0\n1 0\n".toList) :=
  ⟨rfl, rfl⟩

/-- C9 (amended): clauses may be empty: a value-0 token is counted and
emitted as a clause terminator whatever the preceding state of the
current clause (`lit` arbitrary), rejected only when the declared clause
count is already exhausted. -/
theorem c9_empty_clause_amended :
    (∀ (vars clauses parsed lit : Nat) (rest : List Char),
        parseBody vars clauses parsed lit ('0' :: '\n' :: rest) =
          if parsed = clauses then .error .tooManyClauses
          else Except.map (fun evs => (0 : Int) :: evs)
            (parseBody vars clauses (parsed + 1) 0 rest))
      ∧ parseCnf ("p cnf 0 1\n0\n".toList) = .ok (0, 1, [0]) := by
  refine ⟨?_, rfl⟩
  intro vars clauses parsed lit rest
  exact termStep vars clauses parsed lit rest

/-- C10: a minus sign directly followed by the digit 0 (the token `-0`)
is parsed exactly like the token `0`: at any state of the body loop the
two runs coincide, so `-0` counts and is emitted as a clause
terminator. -/
theorem c10_minus_zero :
    (∀ (vars clauses parsed lit : Nat) (rest : List Char), noDigitHead rest →
        parseBody vars clauses parsed lit ('-' :: '0' :: rest) =
          parseBody vars clauses parsed lit ('0' :: rest))
      ∧ parseCnf ("p cnf 1 1\n1 -0\n".toList) = .ok (1, 1, [1, 0]) := by
  refine ⟨?_, rfl⟩
  intro vars clauses parsed lit rest hnd
  exact minus_zero_step vars clauses parsed lit hnd

/-- C10 (witness): the `-0` equivalence applied at a concrete state. -/
theorem c10_minus_zero_witness :
    noDigitHead ['\n']
      ∧ parseBody 1 1 0 0 ('-' :: '0' :: ['\n']) = parseBody 1 1 0 0 ('0' :: ['\n']) := by
  have hnd : noDigitHead ['\n'] := by
    intro d hd
    simp only [List.head?] at hd
    cases hd
    rfl
  exact ⟨hnd, c10_minus_zero.1 1 1 0 0 ['\n'] hnd⟩

end NormCnf
